import Mathlib

/-!
Verification development for the NID OCR extraction service.

The extraction engine (`src/nid_extractor.py`, `extract_nid_fields`) is modelled
by a shallow embedding: the OCR reader is an external capability, so its
behaviour at the call site is an explicit input (`OcrOutcome`); everything from
the recognised text blocks onwards is translated from the Python source.
Python `re.search` is modelled by a small backtracking matcher (`matchRe`,
`reSearch`) with Python's leftmost-match, ordered-alternation and greedy
quantifier semantics; each concrete pattern of the source is transcribed into
the matcher's syntax.  Strings are lists of characters; ASCII case mapping
models `str.lower`/`str.upper` (all pattern text is ASCII).
-/

/-- ASCII uppercase letter test (`[A-Z]`). -/
def isUpperA (c : Char) : Bool := 65 ≤ c.toNat && c.toNat ≤ 90

/-- ASCII lowercase letter test (`[a-z]`). -/
def isLowerA (c : Char) : Bool := 97 ≤ c.toNat && c.toNat ≤ 122

/-- ASCII letter test (`[A-Za-z]`). -/
def isAlphaA (c : Char) : Bool := isUpperA c || isLowerA c

/-- ASCII digit test (`\d`). -/
def isDigitA (c : Char) : Bool := 48 ≤ c.toNat && c.toNat ≤ 57

/-- Python regex word character (`\w`): letter, digit or underscore. -/
def isWordA (c : Char) : Bool := isAlphaA c || isDigitA c || c == '_'

/-- Python whitespace (`\s`, and the set stripped by `str.strip`). -/
def isPySpace (c : Char) : Bool :=
  c == ' ' || c == '\t' || c == '\n' || c == '\r' || c == '\x0b' || c == '\x0c'

/-- ASCII lowercasing of one character, modelling `str.lower`. -/
def lowA (c : Char) : Char := if isUpperA c then Char.ofNat (c.toNat + 32) else c

/-- ASCII uppercasing of one character, modelling `str.upper`. -/
def uppA (c : Char) : Char := if isLowerA c then Char.ofNat (c.toNat - 32) else c

/-- Lowercase a character list (`str.lower`). -/
def lowerL (l : List Char) : List Char := l.map lowA

/-- Uppercase a character list (`str.upper`). -/
def upperL (l : List Char) : List Char := l.map uppA

/-- Model of Python `str.strip()`: remove leading and trailing whitespace. -/
def pyStrip (l : List Char) : List Char :=
  ((l.dropWhile isPySpace).reverse.dropWhile isPySpace).reverse

/-- Does `n` occur as a prefix of `h`? (helper for substring containment). -/
def prefixAt : List Char → List Char → Bool
  | [], _ => true
  | _ :: _, [] => false
  | c :: cs, h :: hs => (c == h) && prefixAt cs hs

/-- Python `n in h` substring containment on character lists. -/
def containsSub (n : List Char) : List Char → Bool
  | [] => prefixAt n []
  | c :: hs => prefixAt n (c :: hs) || containsSub n hs

/-- Regex abstract syntax, covering exactly the constructs used by the source
patterns: character classes, literals (case-sensitive and case-insensitive),
concatenation, ordered alternation, greedy counted repetition of a character
class, greedy option, one capturing group, lookahead, word boundary `\b`
and end anchor `$`. -/
inductive Re where
  | eps
  | cls (p : Char → Bool)
  | lit (s : List Char)
  | liti (s : List Char)
  | seq (a b : Re)
  | alt (a b : Re)
  | rep (p : Char → Bool) (lo : Nat) (hi : Option Nat)
  | opt (a : Re)
  | grp (a : Re)
  | look (a : Re)
  | wb
  | eos

/-- Merge capture information of two sequenced parts (at most one is set). -/
def mergeCap : Option (List Char) → Option (List Char) → Option (List Char)
  | some c, _ => some c
  | none, o => o

/-- Does the literal `s` occur in `t` starting at index `i`? -/
def litAt : List Char → List Char → Nat → Bool
  | [], _, _ => true
  | c :: cs, t, i => (t[i]? == some c) && litAt cs t (i+1)

/-- Case-insensitive literal test; the needle is stored lowercased. -/
def litAtCI : List Char → List Char → Nat → Bool
  | [], _, _ => true
  | c :: cs, t, i => ((t[i]?).map lowA == some c) && litAtCI cs t (i+1)

/-- Length of the maximal run of characters satisfying `p` at the head. -/
def countRunL (p : Char → Bool) : List Char → Nat
  | [] => 0
  | c :: l => if p c then countRunL p l + 1 else 0

/-- The slice `t[i:j]` of a character list. -/
def sliceL (t : List Char) (i j : Nat) : List Char := (t.drop i).take (j - i)

/-- Is position `i` a word boundary of `t` (Python `\b`)? -/
def isWordAt (t : List Char) (i : Nat) : Bool :=
  match t[i]? with
  | some c => isWordA c
  | none => false

/-- Python `\b`: exactly one neighbour of the position is a word character. -/
def wordBoundary (t : List Char) (i : Nat) : Bool :=
  (if i = 0 then false else isWordAt t (i-1)) != isWordAt t i

/-- All ways `re` can match in `t` starting at position `i`, as a list of
(end position, capture) pairs ordered by Python's backtracking priority:
alternatives left to right, repetitions longest first. -/
def matchRe : Re → List Char → Nat → List (Nat × Option (List Char))
  | .eps, _, i => [(i, none)]
  | .cls p, t, i =>
      match t[i]? with
      | some c => if p c then [(i+1, none)] else []
      | none => []
  | .lit s, t, i => if litAt s t i then [(i + s.length, none)] else []
  | .liti s, t, i => if litAtCI s t i then [(i + s.length, none)] else []
  | .seq a b, t, i =>
      (matchRe a t i).flatMap
        (fun r => (matchRe b t r.1).map (fun q => (q.1, mergeCap r.2 q.2)))
  | .alt a b, t, i => matchRe a t i ++ matchRe b t i
  | .rep p lo hi, t, i =>
      let run := countRunL p (t.drop i)
      let top := match hi with | none => run | some h => min h run
      if lo ≤ top then (List.range (top + 1 - lo)).map (fun d => (i + (top - d), none))
      else []
  | .opt a, t, i => matchRe a t i ++ [(i, none)]
  | .grp a, t, i => (matchRe a t i).map (fun r => (r.1, some (sliceL t i r.1)))
  | .look a, t, i => if (matchRe a t i).isEmpty then [] else [(i, none)]
  | .wb, t, i => if wordBoundary t i then [(i, none)] else []
  | .eos, t, i =>
      if (i == t.length) || ((i + 1 == t.length) && (t[i]? == some '\n')) then [(i, none)]
      else []

/-- First `some` produced by `f` along a list. -/
def firstSome {α β : Type} (f : α → Option β) : List α → Option β
  | [] => none
  | x :: xs =>
    match f x with
    | some y => some y
    | none => firstSome f xs

/-- Model of `re.search`: leftmost start position wins, then backtracking
priority at that position. -/
def reSearch (re : Re) (t : List Char) : Option (Nat × Option (List Char)) :=
  firstSome (fun i => (matchRe re t i).head?) (List.range (t.length + 1))

/-- The text captured by group 1 of the first match, `m.group(1)`. -/
def candOf (re : Re) (t : List Char) : Option (List Char) :=
  match reSearch re t with
  | some (_, some g) => some g
  | _ => none

/-- Sequence a list of regexes. -/
def cat : List Re → Re
  | [] => .eps
  | [r] => r
  | r :: rs => .seq r (cat rs)

/-- Ordered alternation of a list of regexes. -/
def alts : List Re → Re
  | [] => .cls (fun _ => false)
  | [r] => r
  | r :: rs => .alt r (alts rs)

/-- Case-sensitive string literal regex. -/
def litS (s : String) : Re := .lit s.data

/-- Case-insensitive string literal regex. -/
def litiS (s : String) : Re := .liti (lowerL s.data)

/-- Character class from an explicit character list. -/
def chClass (cs : List Char) : Re := .cls (fun c => cs.contains c)

/-- The class `[\s-]`. -/
def wsDash (c : Char) : Bool := isPySpace c || c == '-'

/-- The class `[\d\s-]`. -/
def wsDashDigit (c : Char) : Bool := isDigitA c || isPySpace c || c == '-'

/-- Lookahead shared by the first two name patterns:
`(?=\s+(?:fet|faot|ent|Date|Birth|DOB|NID|ID|No|\d)|\n|$)`. -/
def nameLookahead : Re :=
  .look (alts
    [cat [.rep isPySpace 1 none,
          alts [litS "fet", litS "faot", litS "ent", litS "Date", litS "Birth",
                litS "DOB", litS "NID", litS "ID", litS "No", .cls isDigitA]],
     litS "\n", .eos])

/-- The four name patterns of `extract_nid_fields`, in source order
(searched case-sensitively). -/
def name_patterns : List Re :=
  [cat [litS "Name", .rep isPySpace 0 none, .opt (chClass [':', '.']),
        .rep isPySpace 0 none,
        .grp (cat [.cls isUpperA,
                   .rep (fun c => isUpperA c || isPySpace c || c == '.') 1 none]),
        nameLookahead],
   cat [litS "Name", .rep isPySpace 0 none, .opt (chClass [':', '.']),
        .rep isPySpace 1 none,
        .grp (cat [.cls isAlphaA,
                   .rep (fun c => isAlphaA c || isPySpace c || c == '.') 2 (some 30)]),
        nameLookahead],
   cat [.wb, litS "M", .cls (fun c => c == 'd' || c == 'D'), .opt (litS "."),
        .rep isPySpace 1 none,
        .grp (cat [.rep isAlphaA 1 none, .rep isPySpace 1 none, .rep isAlphaA 1 none,
                   .opt (cat [.rep isPySpace 1 none, .rep isAlphaA 1 none])]),
        .wb],
   cat [litS "Name", .rep isPySpace 0 none, .opt (chClass [':', '.']),
        .rep isPySpace 0 none,
        .grp (cat [.rep isUpperA 1 none, .rep isPySpace 1 none, .rep isUpperA 1 none,
                   .opt (cat [.rep isPySpace 1 none, .rep isUpperA 1 none])]),
        .wb]]

/-- The name blacklist of `extract_nid_fields`, in source order. -/
def name_blacklist : List String :=
  ["NATIONAL ID CARD", "ID CARD", "BANGLADESH", "GOVERNMENT",
   "PEOPLES", "REPUBLIC", "CARD", "NATIONAL", "DATE OF BIRTH",
   "GOVERMENT", "soeezledt", "offthe", "Republic"]

/-- The date-of-birth label alternation `(?:Date of Birth|DOB|Birth)`
(case-insensitive). -/
def dobLabel : Re := alts [litiS "Date of Birth", litiS "DOB", litiS "Birth"]

/-- Month abbreviation alternation `(?:Jan|...|Dec)` (case-insensitive). -/
def months3 : Re :=
  alts (["Jan", "Feb", "Mar", "Apr", "May", "Jun", "Jul", "Aug", "Sep", "Oct",
         "Nov", "Dec"].map litiS)

/-- Full month name alternation (case-insensitive). -/
def monthsFull : Re :=
  alts (["January", "February", "March", "April", "May", "June", "July",
         "August", "September", "October", "November", "December"].map litiS)

/-- The four date-of-birth patterns of `extract_nid_fields`, in source order
(searched with `re.IGNORECASE`, modelled by case-insensitive literals). -/
def dob_patterns : List Re :=
  [cat [dobLabel, .opt (chClass [':', '.']), .rep isPySpace 0 none,
        .grp (cat [.rep isDigitA 1 (some 2), .cls wsDash, months3, .cls wsDash,
                   .rep isDigitA 2 (some 4)])],
   cat [dobLabel, .opt (chClass [':', '.']), .rep isPySpace 0 none,
        .grp (cat [.rep isDigitA 1 (some 2), chClass ['/', '.', '-'],
                   .rep isDigitA 1 (some 2), chClass ['/', '.', '-'],
                   .rep isDigitA 2 (some 4)])],
   .grp (cat [.rep isDigitA 1 (some 2), .rep isPySpace 1 none, monthsFull,
              .rep isPySpace 1 none, .rep isDigitA 4 (some 4)]),
   .grp (cat [.rep isDigitA 1 (some 2), .cls wsDash, months3, .cls wsDash,
              .rep isDigitA 2 (some 4)])]

/-- The eight ID-number patterns of `extract_nid_fields`, in source order
(searched case-sensitively). -/
def id_patterns : List Re :=
  [cat [litS "ID", .rep isPySpace 0 none, litS "NO", .opt (chClass [':', '.']),
        .rep isPySpace 0 none,
        .grp (cat [.cls isDigitA, .rep wsDashDigit 5 (some 18), .cls isDigitA])],
   cat [litS "NID", .rep isPySpace 0 none, litS "No", .opt (chClass [':', '.']),
        .rep isPySpace 0 none,
        .grp (cat [.cls isDigitA, .rep wsDashDigit 5 (some 18), .cls isDigitA])],
   cat [.wb, .grp (cat [.rep isDigitA 3 (some 3), .rep isPySpace 1 none,
                        .rep isDigitA 3 (some 3), .rep isPySpace 1 none,
                        .rep isDigitA 4 (some 4)]), .wb],
   cat [.wb, .grp (alts [.rep isDigitA 10 (some 10), .rep isDigitA 13 (some 13),
                         .rep isDigitA 17 (some 17)]), .wb],
   cat [.cls (fun c => c == '<' || c == 'I'), litS "BGD", .grp (.rep isDigitA 9 none),
        .cls (fun c => c == '<' || isDigitA c)],
   cat [alts [litS "ID", litS "NID", litS "Number", litS "No"], chClass [':', '.'],
        .rep isPySpace 0 none,
        .grp (cat [.cls isDigitA, .rep wsDashDigit 1 none, .cls isDigitA])],
   cat [.wb, .grp (cat [.rep isDigitA 3 (some 3), .opt (.cls wsDash),
                        .rep isDigitA 3 (some 3), .opt (.cls wsDash),
                        .rep isDigitA 4 (some 4)]), .wb],
   cat [.wb, .grp (.rep isDigitA 10 none), .wb]]

/-- Does the candidate case-insensitively contain a blacklisted phrase?
(`any(blacklisted.lower() in name_candidate.lower() ...)`). -/
def blacklistHit (cand : List Char) : Bool :=
  name_blacklist.any (fun b => containsSub (lowerL b.data) (lowerL cand))

/-- Immediate-accept test for a name candidate:
`' ' in name_candidate and 4 <= len(name_candidate) <= 40`. -/
def nameAcceptOk (c : List Char) : Bool :=
  c.contains ' ' && decide (4 ≤ c.length) && decide (c.length ≤ 40)

/-- Tentative-accept test for a name candidate:
`len(name_candidate) > 5 and not re.search(r'\d', name_candidate)`. -/
def nameTentOk (c : List Char) : Bool :=
  decide (5 < c.length) && !(c.any isDigitA)

/-- The name-pattern loop of `extract_nid_fields` (lines 135-153): skip
blacklisted candidates, break on a valid spaced candidate, keep scanning
after recording a tentative candidate. -/
def nameLoop : List Re → List Char → List Char → List Char
  | [], _, acc => acc
  | p :: ps, t, acc =>
    match candOf p t with
    | none => nameLoop ps t acc
    | some g0 =>
      let c := pyStrip g0
      if blacklistHit c then nameLoop ps t acc
      else if nameAcceptOk c then c
      else if nameTentOk c then nameLoop ps t c
      else nameLoop ps t acc

/-- The date-of-birth loop (lines 163-168): first matching pattern wins and
its group is stored trimmed. -/
def dobLoop : List Re → List Char → List Char
  | [], _ => []
  | p :: ps, t =>
    match candOf p t with
    | some g => pyStrip g
    | none => dobLoop ps t

/-- Separator stripping for an ID candidate: `re.sub(r'[\s-]', '', id_text)`. -/
def clean_id (g : List Char) : List Char := g.filter (fun c => !wsDash c)

/-- Canonical Bangladesh NID lengths: `len(clean_id) in [10, 13, 17]`. -/
def canonicalLen (l : List Char) : Bool :=
  l.length == 10 || l.length == 13 || l.length == 17

/-- The ID-pattern loop (lines 197-213): break on a canonical-length match,
otherwise store the cleaned candidate and keep scanning. -/
def idLoop : List Re → List Char → List Char → List Char
  | [], _, acc => acc
  | p :: ps, t, acc =>
    match candOf p t with
    | none => idLoop ps t acc
    | some g => if canonicalLen (clean_id g) then clean_id g else idLoop ps t (clean_id g)

/-- The result record of `extract_nid_fields`: the dict with keys `Name`,
`Date of birth`, `ID Number`, `Full extracted text` and the optional `error`. -/
structure NidData where
  name : String
  dateOfBirth : String
  idNumber : String
  fullExtractedText : String
  error : Option String
  deriving DecidableEq

/-- The image argument of `extract_nid_fields`, abstracted to the four
branch-relevant cases of lines 55-68: an existing path, a missing path, a
numpy array, or an unsupported type. -/
inductive PyImage where
  | pathExists
  | pathMissing
  | ndarray
  | otherType
  deriving DecidableEq

/-- Outcome of the external OCR reader call (`reader.readtext`): either it
raises with a message, or it returns a list of result blocks; a block is its
list of entries with the text at index 1 (the bounding box is irrelevant to
the core, so entries are just strings). -/
inductive OcrOutcome where
  | raises (msg : String)
  | returns (results : List (List String))
  deriving DecidableEq

/-- Text collection of lines 100-108: keep `result[1]` of every block with at
least two entries, skipping malformed blocks. -/
def text_blocks (results : List (List String)) : List String :=
  results.filterMap (fun r => if 2 ≤ r.length then r[1]? else none)

/-- Join the block texts with single spaces: `" ".join(text_blocks)`. -/
def joinSp : List String → List Char
  | [] => []
  | [s] => s.data
  | s :: rest => s.data ++ ' ' :: joinSp rest

/-- An all-empty result carrying an error message. -/
def emptyNid (e : String) : NidData := ⟨"", "", "", "", some e⟩

/-- Field extraction from a nonempty OCR result list (lines 99-216). -/
def extractFromBlocks (results : List (List String)) : NidData :=
  let ft := joinSp (text_blocks results)
  { name := String.mk (nameLoop name_patterns ft []),
    dateOfBirth := String.mk (dobLoop dob_patterns ft),
    idNumber := String.mk (idLoop id_patterns ft []),
    fullExtractedText := String.mk (pyStrip ft),
    error := none }

/-- Shallow embedding of `extract_nid_fields` (src/nid_extractor.py lines
41-221).  The function is total: every failure path of the source stores a
message in `error` and returns, which the embedding reproduces exactly. -/
def extract_nid_fields (img : PyImage) (ocr : OcrOutcome) : NidData :=
  match img with
  | .pathMissing => emptyNid "Image file not found"
  | .otherType => emptyNid "Unsupported image format"
  | _ =>
    match ocr with
    | .raises msg => emptyNid ("OCR reading failed: " ++ msg)
    | .returns [] => emptyNid "No text detected in the image"
    | .returns (r :: rs) => extractFromBlocks (r :: rs)

/-!
Model of `difflib.SequenceMatcher` as used by `process_image`
(src/app.py lines 142-168).  The matcher is constructed with no junk
predicate and the default `autojunk=True`, so the model implements: the
`b2j` index with the autojunk purge of popular elements (active when
`len(b) >= 200`), the quadratic longest-matching-block search
(`find_longest_match`) with its junk-free extension loops, and the
Ratcliff/Obershelp recursion that sums matching-block sizes;
`ratio = 2*M/T` is computed in double precision and `round(x, 2)` with
CPython's correctly rounded decimal rounding, both modelled exactly over
the rationals (a double is an exact dyadic rational).
-/

/-- The tentative block length for column `j`: `j2len.get(j-1, 0) + 1`. -/
def kOf (dprev : Nat → Nat) (j : Nat) : Nat :=
  (if j = 0 then 0 else dprev (j - 1)) + 1

/-- One row of the `find_longest_match` dynamic program: walk the matching
columns `js`, building the new `j2len` dictionary (a function with default 0)
and updating the best block `(besti, bestj, bestsize)` on strictly greater
length. -/
def innerRow (dprev : Nat → Nat) (i : Nat) :
    List Nat → (Nat → Nat) → (Nat × Nat × Nat) → ((Nat → Nat) × (Nat × Nat × Nat))
  | [], dnew, best => (dnew, best)
  | j :: js, dnew, best =>
    let k := kOf dprev j
    let dnew2 : Nat → Nat := fun x => if x = j then k else dnew x
    let best2 := if best.2.2 < k then (i + 1 - k, j + 1 - k, k) else best
    innerRow dprev i js dnew2 best2

/-- The autojunk "popular" test of `SequenceMatcher.__chain_b`: with the
default `autojunk=True` and no junk predicate, an element is purged from
`b2j` when `len(b) >= 200` and it occurs more than `len(b) // 100 + 1`
times in `b`. -/
def popularB (b : List Char) (c : Char) : Bool :=
  decide (200 ≤ b.length) && decide (b.length / 100 + 1 < b.count c)

/-- Popularity of an optional element (an out-of-range read is never
popular). -/
def popularO (b : List Char) : Option Char → Bool
  | some c => popularB b c
  | none => false

/-- The columns `j` in `[blo, bhi)` with `b[j] == a[i]` (ascending), as
produced by the `b2j` index of `SequenceMatcher`; a popular `a[i]` has no
`b2j` entry at all, so its column list is empty. -/
def rowIdx (a b : List Char) (blo bhi i : Nat) : List Nat :=
  (List.range' blo (bhi - blo)).filter
    (fun j => b[j]? == a[i]? && !popularO b a[i]?)

/-- The rows of the `find_longest_match` dynamic program. -/
def outerRows (a b : List Char) (blo bhi : Nat) :
    List Nat → (Nat → Nat) → (Nat × Nat × Nat) → ((Nat → Nat) × (Nat × Nat × Nat))
  | [], d, best => (d, best)
  | i :: is, d, best =>
    let r := innerRow d i (rowIdx a b blo bhi i) (fun _ => 0) best
    outerRows a b blo bhi is r.1 r.2

/-- The dynamic-programming core of `find_longest_match`. -/
def flmCore (a b : List Char) (alo ahi blo bhi : Nat) : Nat × Nat × Nat :=
  (outerRows a b blo bhi (List.range' alo (ahi - alo)) (fun _ => 0) (alo, blo, 0)).2

/-- The leftward extension loop of `find_longest_match`: with no junk
predicate, `bjunk` is empty, so `not isbjunk(...)` is always true and the
loop extends over every equal pair (the junk variants of the loop never
fire).  The fuel equals `besti`, which bounds the iteration count exactly;
the `isSome` guard only rules out out-of-range accesses that cannot occur. -/
def extendL (a b : List Char) (alo blo : Nat) : Nat → (Nat × Nat × Nat) → (Nat × Nat × Nat)
  | 0, best => best
  | fuel+1, (bi, bj, bs) =>
    if alo < bi && blo < bj && ((a[bi-1]?).isSome && a[bi-1]? == b[bj-1]?) then
      extendL a b alo blo fuel (bi - 1, bj - 1, bs + 1)
    else (bi, bj, bs)

/-- The rightward extension loop of `find_longest_match` (junk-free case). -/
def extendR (a b : List Char) (ahi bhi bi bj : Nat) : Nat → Nat → Nat
  | 0, bs => bs
  | fuel+1, bs =>
    if bi + bs < ahi && bj + bs < bhi && ((a[bi+bs]?).isSome && a[bi+bs]? == b[bj+bs]?) then
      extendR a b ahi bhi bi bj fuel (bs + 1)
    else bs

/-- Model of `SequenceMatcher.find_longest_match` restricted to
`[alo, ahi) × [blo, bhi)`, without junk (the junk extension loops of the
source are no-ops when the junk set is empty). -/
def find_longest_match (a b : List Char) (alo ahi blo bhi : Nat) : Nat × Nat × Nat :=
  let c := flmCore a b alo ahi blo bhi
  let l := extendL a b alo blo c.1 c
  (l.1, l.2.1, extendR a b ahi bhi l.1 l.2.1 (ahi - (l.1 + l.2.2)) l.2.2)

/-- Total size of the matching blocks (the `M` of `ratio`): the
Ratcliff/Obershelp recursion of `get_matching_blocks`, with enough fuel for
the strictly shrinking ranges. -/
def mbSize (a b : List Char) : Nat → Nat × Nat × Nat × Nat → Nat
  | 0, _ => 0
  | fuel+1, (alo, ahi, blo, bhi) =>
    let m := find_longest_match a b alo ahi blo bhi
    if m.2.2 = 0 then 0
    else
      m.2.2 + mbSize a b fuel (alo, m.1, blo, m.2.1)
        + mbSize a b fuel (m.1 + m.2.2, ahi, m.2.1 + m.2.2, bhi)

/-- Binary-exponent search for rounding `num/den` to a double: the smallest
`k` with `2^52 * den ≤ num * 2^k`, so that `num * 2^k / den` lands in the
mantissa range `[2^52, 2^53)`.  The fuel `52 + den` always suffices. -/
def flK (num den : Nat) : Nat → Nat → Nat
  | 0, k => k
  | fuel+1, k => if 2^52 * den ≤ num * 2^k then k else flK num den fuel (k+1)

/-- The IEEE-754 double nearest to the nonnegative rational `num / den`
(ties to even), as an exact rational.  Valid for values below `2^53` and
above the subnormal range, which covers every value the scorer produces. -/
def flq (num den : Nat) : ℚ :=
  if num = 0 ∨ den = 0 then 0
  else
    let k := flK num den (52 + den) 0
    let p := num * 2 ^ k
    let m0 := p / den
    let r := p % den
    let m := if 2 * r < den then m0
             else if den < 2 * r then m0 + 1
             else if m0 % 2 = 0 then m0 else m0 + 1
    mkRat m (2 ^ k)

/-- Model of `SequenceMatcher(None, a, b).ratio()`: the float
`2.0 * M / T` (`2 * M` is an exact double, the division rounds to nearest),
and `1.0` when both sequences are empty. -/
def pyRatio (a b : List Char) : ℚ :=
  let m := mbSize a b (a.length + b.length + 1) (0, a.length, 0, b.length)
  if a.length + b.length = 0 then 1 else flq (2 * m) (a.length + b.length)

/-- Round-half-even of `q * 100` to an integer, on the exact value of `q`. -/
def bankers100 (q : ℚ) : ℤ :=
  let n100 : ℤ := q.num * 100
  let d : ℤ := (q.den : ℤ)
  let fl : ℤ := Int.fdiv n100 d
  let r : ℤ := n100 - fl * d
  if 2 * r < d then fl
  else if d < 2 * r then fl + 1
  else if fl % 2 = 0 then fl else fl + 1

/-- Model of CPython `round(x, 2)` on a nonnegative float `x` (here `x` is
the exact rational value of a double): the exact binary value is rounded to
two decimal places half-to-even (David Gay's correctly rounded conversion),
and the resulting decimal is converted back to the nearest double. -/
def pyRound2 (q : ℚ) : ℚ := flq (bankers100 q).toNat 100

/-- Model of Python `str.strip()` on `String`. -/
def pyStripS (s : String) : String := String.mk (pyStrip s.data)

/-- A value stored in a similarity slot: a rounded ratio or a sentinel
string. -/
inductive SimValue where
  | num (q : ℚ)
  | sentinel (s : String)
  deriving DecidableEq

/-- The similarity report of `process_image`: the `similarity` dict, whose
shape is determined by its `status` key; in the partial-comparison shape the
two slots are `None` (`Option.none`) or hold a `SimValue`. -/
inductive SimReport where
  | noComparisonData
  | partialComparison (name_similarity dob_similarity : Option SimValue)
  | errorCalculating
  deriving DecidableEq

/-- Shallow embedding of the similarity-scoring block of `process_image`
(src/app.py lines 134-165): the provided form values are stripped, and each
slot is a rounded `SequenceMatcher` ratio of the uppercased strings, a
sentinel when only the provided value is nonempty, or `None`. -/
def process_image_similarity
    (providedName providedDob extractedName extractedDob : String) : SimReport :=
  let pn := pyStripS providedName
  let pd := pyStripS providedDob
  if pn = "" ∧ pd = "" then .noComparisonData
  else
    let en := pyStripS extractedName
    let ns : Option SimValue :=
      if pn ≠ "" ∧ en ≠ "" then
        some (.num (pyRound2 (pyRatio (upperL pn.data) (upperL en.data))))
      else if pn ≠ "" then some (.sentinel "no_extracted_name_available")
      else none
    let ed := pyStripS extractedDob
    let ds : Option SimValue :=
      if pd ≠ "" ∧ ed ≠ "" then
        some (.num (pyRound2 (pyRatio (upperL pd.data) (upperL ed.data))))
      else if pd ≠ "" then some (.sentinel "no_extracted_dob_available")
      else none
    .partialComparison ns ds

/-- The response record built by `process_image` after the similarity step:
the extraction dict plus the `similarity` key. -/
structure ProcessResult where
  name : String
  dateOfBirth : String
  idNumber : String
  fullExtractedText : String
  error : Option String
  similarity : SimReport
  deriving DecidableEq

/-- The try/except of src/app.py lines 142-168 around similarity scoring:
a fault while scoring (modelled as `Except.error`) is replaced by the
`error_calculating_similarity` report; the extracted fields are copied
unchanged in both cases. -/
def attach_similarity (r : NidData) (scored : Except String SimReport) : ProcessResult :=
  match scored with
  | .ok s => ⟨r.name, r.dateOfBirth, r.idNumber, r.fullExtractedText, r.error, s⟩
  | .error _ =>
    ⟨r.name, r.dateOfBirth, r.idNumber, r.fullExtractedText, r.error, .errorCalculating⟩


/-!
Character-level lemmas about the matcher, used for the digits-only invariant
of the ID-number field.
-/

/-- All characters a regex can consume satisfy `P` (syntactic condition).
Case-insensitive literals are excluded (never used inside an ID group). -/
def ReOnly (P : Char → Bool) : Re → Prop
  | .eps => True
  | .cls p => ∀ c, p c = true → P c = true
  | .lit s => ∀ c ∈ s, P c = true
  | .liti _ => False
  | .seq a b => ReOnly P a ∧ ReOnly P b
  | .alt a b => ReOnly P a ∧ ReOnly P b
  | .rep p _ _ => ∀ c, p c = true → P c = true
  | .opt a => ReOnly P a
  | .grp a => ReOnly P a
  | .look _ => True
  | .wb => True
  | .eos => True

/-- Every capturing group of the regex consumes only characters satisfying
`P` (syntactic condition). -/
def GrpOnly (P : Char → Bool) : Re → Prop
  | .seq a b => GrpOnly P a ∧ GrpOnly P b
  | .alt a b => GrpOnly P a ∧ GrpOnly P b
  | .opt a => GrpOnly P a
  | .grp a => ReOnly P a
  | _ => True

/-!
Characterisations of the three extraction loops as two-phase scans,
matching the tie-break policies the specification describes.
-/

/-- The first candidate (in pattern order) that passes the blacklist and the
immediate-accept test of the name loop. -/
def firstAcceptName : List Re → List Char → Option (List Char)
  | [], _ => none
  | p :: ps, t =>
    match candOf p t with
    | none => firstAcceptName ps t
    | some g0 =>
      let c := pyStrip g0
      if !blacklistHit c && nameAcceptOk c then some c else firstAcceptName ps t

/-- The last candidate (in pattern order) that reaches the tentative branch
of the name loop: non-blacklisted, not immediately accepted, longer than 5
characters and digit-free. -/
def lastTentName : List Re → List Char → Option (List Char)
  | [], _ => none
  | p :: ps, t =>
    match lastTentName ps t with
    | some c => some c
    | none =>
      match candOf p t with
      | none => none
      | some g0 =>
        let c := pyStrip g0
        if !blacklistHit c && !nameAcceptOk c && nameTentOk c then some c else none

/-- The first candidate (in pattern order) whose cleaned digits have one of
the canonical lengths 10, 13, 17. -/
def firstCanonId : List Re → List Char → Option (List Char)
  | [], _ => none
  | p :: ps, t =>
    match candOf p t with
    | none => firstCanonId ps t
    | some g =>
      if canonicalLen (clean_id g) then some (clean_id g) else firstCanonId ps t

/-- The last matching candidate (in pattern order) cleaned of separators,
among candidates of non-canonical length. -/
def lastProvId : List Re → List Char → Option (List Char)
  | [], _ => none
  | p :: ps, t =>
    match lastProvId ps t with
    | some c => some c
    | none =>
      match candOf p t with
      | none => none
      | some g => if canonicalLen (clean_id g) then none else some (clean_id g)

/-- Is position `x` of `l` readable and non-popular (an allowed match
column on identical inputs)? -/
def okAt (l : List Char) (x : Nat) : Bool :=
  match l[x]? with
  | some c => !popularB l c
  | none => false

/-- Length of the allowed run ending at position `x` of `l`: the length of
the maximal block of consecutive allowed positions ending at `x`. -/
def runAllow (l : List Char) : Nat → Nat
  | 0 => if okAt l 0 then 1 else 0
  | x+1 => if okAt l (x+1) then runAllow l x + 1 else 0

/-- The allowed run ending at the row before `i` (0 before the first row). -/
def prevRun (l : List Char) : Nat → Nat
  | 0 => 0
  | i+1 => runAllow l i

/-- Invariant of the `find_longest_match` dictionary before row `i` on
identical inputs: every entry is bounded by the allowed run at its key and
by the allowed run at the previous row, and the previous row's diagonal
entry is exactly its allowed run. -/
def DInv (l : List Char) (i : Nat) (d : Nat → Nat) : Prop :=
  (∀ y, d y ≤ runAllow l y) ∧
  (∀ y, d y ≤ prevRun l i) ∧
  (∀ i', i = i' + 1 → d i' = runAllow l i')

/-- Invariant of the best block before row `i` on identical inputs: the
block is on the diagonal, ends within the processed rows, and dominates
every allowed run of a processed row. -/
def BInv (l : List Char) (i : Nat) (best : Nat × Nat × Nat) : Prop :=
  best.1 = best.2.1 ∧ best.1 + best.2.2 ≤ i ∧
  (∀ x, x < i → runAllow l x ≤ best.2.2)

theorem litAt_spec (s : List Char) : ∀ t i, litAt s t i = true →
    ∀ k, i ≤ k → k < i + s.length → ∃ c, t[k]? = some c ∧ c ∈ s := by
  induction s with
  | nil => intro t i _ k hik hkl; simp at hkl; omega
  | cons c cs ih =>
    intro t i h k hik hkl
    simp only [litAt, Bool.and_eq_true, beq_iff_eq] at h
    rcases h with ⟨h1, h2⟩
    rcases Nat.eq_or_lt_of_le hik with rfl | hlt
    · exact ⟨c, h1, List.mem_cons_self c cs⟩
    · rcases ih t (i+1) h2 k hlt (by simp at hkl ⊢; omega) with ⟨c0, hc0, hmem⟩
      exact ⟨c0, hc0, List.mem_cons_of_mem c hmem⟩

theorem countRunL_spec (p : Char → Bool) : ∀ l m, m < countRunL p l →
    ∃ c, l[m]? = some c ∧ p c = true := by
  intro l
  induction l with
  | nil => intro m h; simp [countRunL] at h
  | cons c cs ih =>
    intro m h
    simp only [countRunL] at h
    by_cases hp : p c = true
    · simp [hp] at h
      cases m with
      | zero => exact ⟨c, by simp, hp⟩
      | succ m0 =>
        rcases ih m0 (by omega) with ⟨c0, hc0, hpc0⟩
        exact ⟨c0, by simpa using hc0, hpc0⟩
    · rw [if_neg hp] at h
      omega

theorem matchRe_span (P : Char → Bool) :
    ∀ re, ReOnly P re → ∀ t i j cap, (j, cap) ∈ matchRe re t i →
      ∀ k c, i ≤ k → k < j → t[k]? = some c → P c = true := by
  intro re
  induction re with
  | eps =>
    intro _ t i j cap hmem k c hik hkj _
    simp [matchRe] at hmem
    omega
  | cls p =>
    intro hro t i j cap hmem k c hik hkj hkc
    cases ht : t[i]? with
    | none => simp [matchRe, ht] at hmem
    | some c0 =>
      simp [matchRe, ht] at hmem
      rcases hmem with ⟨hp, hj, -⟩
      have hk : k = i := by omega
      subst hk
      rw [ht] at hkc
      cases hkc
      exact hro _ hp
  | lit s =>
    intro hro t i j cap hmem k c hik hkj hkc
    simp [matchRe] at hmem
    rcases hmem with ⟨hl, hj, -⟩
    rcases litAt_spec s t i hl k hik (by omega) with ⟨c0, hc0, hm⟩
    rw [hc0] at hkc
    cases hkc
    exact hro c hm
  | liti s => intro hro; exact absurd hro (by simp [ReOnly])
  | seq a b iha ihb =>
    intro hro t i j cap hmem k c hik hkj hkc
    rcases hro with ⟨hra, hrb⟩
    simp only [matchRe, List.mem_flatMap, List.mem_map] at hmem
    rcases hmem with ⟨r, hr, q, hq, hEq⟩
    have hj : j = q.1 := by
      have := congrArg Prod.fst hEq
      simpa using this.symm
    subst hj
    by_cases hkm : k < r.1
    · exact iha hra t i r.1 r.2 (by simpa using hr) k c hik hkm hkc
    · exact ihb hrb t r.1 q.1 q.2 (by simpa using hq) k c (by omega) hkj hkc
  | alt a b iha ihb =>
    intro hro t i j cap hmem k c hik hkj hkc
    rcases hro with ⟨hra, hrb⟩
    simp only [matchRe, List.mem_append] at hmem
    rcases hmem with h | h
    · exact iha hra t i j cap h k c hik hkj hkc
    · exact ihb hrb t i j cap h k c hik hkj hkc
  | rep p lo hi =>
    intro hro t i j cap hmem k c hik hkj hkc
    simp only [matchRe] at hmem
    set run := countRunL p (t.drop i) with hrun
    set top := (match hi with | none => run | some h => min h run) with htop
    have htr : top ≤ run := by
      rw [htop]
      cases hi with
      | none => exact Nat.le_refl _
      | some h => exact Nat.min_le_right _ _
    by_cases hlt : lo ≤ top
    · simp only [hlt, if_pos, List.mem_map, List.mem_range] at hmem
      rcases hmem with ⟨d, _, hEq⟩
      have hj : j = i + (top - d) := by
        have := congrArg Prod.fst hEq
        simpa using this.symm
      subst hj
      have hmrun : k - i < run := by omega
      rcases countRunL_spec p (t.drop i) (k - i) hmrun with ⟨c0, hc0, hpc0⟩
      rw [List.getElem?_drop] at hc0
      have hki : i + (k - i) = k := by omega
      rw [hki] at hc0
      rw [hc0] at hkc
      cases hkc
      exact hro c hpc0
    · rw [if_neg hlt] at hmem
      simp at hmem
  | opt a iha =>
    intro hro t i j cap hmem k c hik hkj hkc
    simp only [matchRe, List.mem_append] at hmem
    rcases hmem with h | h
    · exact iha hro t i j cap h k c hik hkj hkc
    · simp at h; omega
  | grp a iha =>
    intro hro t i j cap hmem k c hik hkj hkc
    simp only [matchRe, List.mem_map] at hmem
    rcases hmem with ⟨r, hr, hEq⟩
    have hj : j = r.1 := by
      have := congrArg Prod.fst hEq
      simpa using this.symm
    subst hj
    exact iha hro t i r.1 r.2 (by simpa using hr) k c hik hkj hkc
  | look a _ =>
    intro _ t i j cap hmem k c hik hkj _
    simp [matchRe] at hmem
    omega
  | wb =>
    intro _ t i j cap hmem k c hik hkj _
    simp [matchRe] at hmem
    omega
  | eos =>
    intro _ t i j cap hmem k c hik hkj _
    simp only [matchRe] at hmem
    split at hmem
    · simp at hmem; omega
    · simp at hmem

theorem sliceL_mem (t : List Char) (i j : Nat) (c : Char) (h : c ∈ sliceL t i j) :
    ∃ k, i ≤ k ∧ k < j ∧ t[k]? = some c := by
  unfold sliceL at h
  rcases List.mem_iff_getElem?.1 h with ⟨m, hm⟩
  have hmlt : m < j - i := by
    by_contra hc
    push_neg at hc
    rw [show ((t.drop i).take (j-i))[m]? = none by simp [List.getElem?_take]; omega] at hm
    exact Option.noConfusion hm
  rw [show ((t.drop i).take (j-i))[m]? = (t.drop i)[m]? by simp [List.getElem?_take, hmlt],
      List.getElem?_drop] at hm
  exact ⟨i + m, by omega, by omega, hm⟩

theorem matchRe_cap (P : Char → Bool) :
    ∀ re, GrpOnly P re → ∀ t i j g, (j, some g) ∈ matchRe re t i →
      ∀ c ∈ g, P c = true := by
  intro re
  induction re with
  | eps => intro _ t i j g hmem; simp [matchRe] at hmem
  | cls p =>
    intro _ t i j g hmem
    cases ht : t[i]? with
    | none => simp [matchRe, ht] at hmem
    | some c0 => simp [matchRe, ht] at hmem
  | lit s => intro _ t i j g hmem; simp [matchRe] at hmem
  | liti s => intro _ t i j g hmem; simp [matchRe] at hmem
  | seq a b iha ihb =>
    intro hro t i j g hmem c hc
    rcases hro with ⟨hga, hgb⟩
    simp only [matchRe, List.mem_flatMap, List.mem_map] at hmem
    rcases hmem with ⟨r, hr, q, hq, hEq⟩
    have hcap : mergeCap r.2 q.2 = some g := by
      have := congrArg Prod.snd hEq
      simpa using this
    cases hr2 : r.2 with
    | some x =>
      rw [hr2] at hcap
      simp [mergeCap] at hcap
      subst hcap
      exact iha hga t i r.1 x (by rw [← hr2]; simpa using hr) c hc
    | none =>
      rw [hr2] at hcap
      simp [mergeCap] at hcap
      exact ihb hgb t r.1 q.1 g (by rw [← hcap]; simpa using hq) c hc
  | alt a b iha ihb =>
    intro hro t i j g hmem c hc
    rcases hro with ⟨hga, hgb⟩
    simp only [matchRe, List.mem_append] at hmem
    rcases hmem with h | h
    · exact iha hga t i j g h c hc
    · exact ihb hgb t i j g h c hc
  | rep p lo hi =>
    intro _ t i j g hmem c hc
    simp only [matchRe] at hmem
    split at hmem
    · simp at hmem
    · simp at hmem
  | opt a iha =>
    intro hro t i j g hmem c hc
    simp only [matchRe, List.mem_append] at hmem
    rcases hmem with h | h
    · exact iha hro t i j g h c hc
    · simp at h
  | grp a _ =>
    intro hro t i j g hmem c hc
    simp only [matchRe, List.mem_map] at hmem
    rcases hmem with ⟨r, hr, hEq⟩
    have hg : g = sliceL t i r.1 := by
      have := congrArg Prod.snd hEq
      simpa using this.symm
    subst hg
    rcases sliceL_mem t i r.1 c hc with ⟨k, hik, hkj, hkc⟩
    exact matchRe_span P a hro t i r.1 r.2 (by simpa using hr) k c hik hkj hkc
  | look a _ =>
    intro _ t i j g hmem c hc
    simp [matchRe] at hmem
  | wb => intro _ t i j g hmem c hc; simp [matchRe] at hmem
  | eos =>
    intro _ t i j g hmem c hc
    simp only [matchRe] at hmem
    split at hmem
    · simp at hmem
    · simp at hmem

theorem firstSome_spec {α β : Type} (f : α → Option β) :
    ∀ l y, firstSome f l = some y → ∃ x ∈ l, f x = some y := by
  intro l
  induction l with
  | nil => intro y h; simp [firstSome] at h
  | cons x xs ih =>
    intro y h
    simp only [firstSome] at h
    cases hx : f x with
    | some z =>
      rw [hx] at h
      cases h
      exact ⟨x, List.mem_cons_self x xs, hx⟩
    | none =>
      rw [hx] at h
      rcases ih y h with ⟨x0, hx0, hf⟩
      exact ⟨x0, List.mem_cons_of_mem x hx0, hf⟩

theorem candOf_chars (P : Char → Bool) (re : Re) (hg : GrpOnly P re) (t g : List Char)
    (h : candOf re t = some g) : ∀ c ∈ g, P c = true := by
  unfold candOf at h
  cases hs : reSearch re t with
  | none => rw [hs] at h; exact absurd h (by simp)
  | some r =>
    rw [hs] at h
    rcases r with ⟨j, cap⟩
    cases cap with
    | none => exact absurd h (by simp)
    | some g0 =>
      have hg0 : g0 = g := by simpa using h
      subst hg0
      unfold reSearch at hs
      rcases firstSome_spec _ _ _ hs with ⟨i, -, hf⟩
      have hmem : (j, some g0) ∈ matchRe re t i :=
        List.mem_of_mem_head? (by simp [hf])
      exact matchRe_cap P re hg t i j g0 hmem

theorem digit_imp_wdd (c : Char) (h : isDigitA c = true) : wsDashDigit c = true := by
  simp [wsDashDigit, h]

theorem space_imp_wdd (c : Char) (h : isPySpace c = true) : wsDashDigit c = true := by
  simp [wsDashDigit, h]

theorem wsDash_imp_wdd (c : Char) (h : wsDash c = true) : wsDashDigit c = true := by
  simp [wsDash] at h
  rcases h with h | h
  · simp [wsDashDigit, h]
  · simp [wsDashDigit, h]

theorem id_patterns_grponly : ∀ p ∈ id_patterns, GrpOnly wsDashDigit p := by
  intro p hp
  simp only [id_patterns, List.mem_cons, List.not_mem_nil, or_false] at hp
  rcases hp with rfl | rfl | rfl | rfl | rfl | rfl | rfl | rfl <;>
    · simp only [GrpOnly, ReOnly, cat, alts, litS, chClass]
      repeat' apply And.intro
      all_goals
        first
          | trivial
          | (intro c h;
             first
               | exact digit_imp_wdd c h
               | exact space_imp_wdd c h
               | exact wsDash_imp_wdd c h
               | exact h)

theorem clean_id_digits (g : List Char) (hg : ∀ c ∈ g, wsDashDigit c = true) :
    ∀ c ∈ clean_id g, isDigitA c = true := by
  intro c hc
  unfold clean_id at hc
  rcases List.mem_filter.1 hc with ⟨h1, h2⟩
  have h3 := hg c h1
  simp [wsDashDigit] at h3
  simp [wsDash] at h2
  rcases h2 with ⟨h2a, h2b⟩
  rcases h3 with (h3 | h3) | h3
  · exact h3
  · rw [h2a] at h3; exact Bool.noConfusion h3
  · exact absurd h3 h2b

theorem idLoop_digits : ∀ (ps : List Re) (t acc : List Char),
    (∀ p ∈ ps, GrpOnly wsDashDigit p) → (∀ c ∈ acc, isDigitA c = true) →
    ∀ c ∈ idLoop ps t acc, isDigitA c = true := by
  intro ps
  induction ps with
  | nil => intro t acc _ hacc; simpa [idLoop] using hacc
  | cons p ps ih =>
    intro t acc hps hacc
    have hp : GrpOnly wsDashDigit p := hps p (List.mem_cons_self p ps)
    have hps2 : ∀ q ∈ ps, GrpOnly wsDashDigit q :=
      fun q hq => hps q (List.mem_cons_of_mem p hq)
    simp only [idLoop]
    cases hc : candOf p t with
    | none => exact ih t acc hps2 hacc
    | some g =>
      have hgd : ∀ c ∈ clean_id g, isDigitA c = true :=
        clean_id_digits g (candOf_chars wsDashDigit p hp t g hc)
      by_cases hcan : canonicalLen (clean_id g) = true
      · simpa [hcan] using hgd
      · simp only [Bool.not_eq_true] at hcan
        simpa [hcan] using ih t (clean_id g) hps2 hgd

theorem nameLoop_eq : ∀ (ps : List Re) (t acc : List Char),
    nameLoop ps t acc =
      match firstAcceptName ps t with
      | some c => c
      | none => (lastTentName ps t).getD acc := by
  intro ps
  induction ps with
  | nil => intro t acc; simp [nameLoop, firstAcceptName, lastTentName]
  | cons p ps ih =>
    intro t acc
    simp only [nameLoop, firstAcceptName, lastTentName]
    cases hc : candOf p t with
    | none =>
      cases hl : lastTentName ps t with
      | none => simpa [hl] using ih t acc
      | some c => simpa [hl] using ih t acc
    | some g0 =>
      by_cases hbl : blacklistHit (pyStrip g0) = true
      · simp only [hbl, if_pos, Bool.not_true, Bool.false_and, Bool.and_false,
          if_neg (by simp : ¬(false = true))]
        cases hl : lastTentName ps t with
        | none => simpa [hl] using ih t acc
        | some c => simpa [hl] using ih t acc
      · simp only [Bool.not_eq_true] at hbl
        by_cases hacc : nameAcceptOk (pyStrip g0) = true
        · simp [hbl, hacc]
        · simp only [Bool.not_eq_true] at hacc
          by_cases htent : nameTentOk (pyStrip g0) = true
          · simp only [hbl, hacc, htent, Bool.not_false, Bool.true_and, Bool.and_true,
              if_neg (by simp : ¬(false = true)), if_pos rfl]
            cases hfa : firstAcceptName ps t with
            | some c => simpa [hfa] using ih t (pyStrip g0)
            | none =>
              cases hl : lastTentName ps t with
              | none => simpa [hfa, hl] using ih t (pyStrip g0)
              | some c => simpa [hfa, hl] using ih t (pyStrip g0)
          · simp only [Bool.not_eq_true] at htent
            simp only [hbl, hacc, htent, Bool.not_false, Bool.true_and, Bool.and_false,
              if_neg (by simp : ¬(false = true))]
            cases hl : lastTentName ps t with
            | none => simpa [hl] using ih t acc
            | some c => simpa [hl] using ih t acc

theorem idLoop_eq : ∀ (ps : List Re) (t acc : List Char),
    idLoop ps t acc =
      match firstCanonId ps t with
      | some c => c
      | none => (lastProvId ps t).getD acc := by
  intro ps
  induction ps with
  | nil => intro t acc; simp [idLoop, firstCanonId, lastProvId]
  | cons p ps ih =>
    intro t acc
    simp only [idLoop, firstCanonId, lastProvId]
    cases hc : candOf p t with
    | none =>
      cases hl : lastProvId ps t with
      | none => simpa [hl] using ih t acc
      | some c => simpa [hl] using ih t acc
    | some g =>
      by_cases hcan : canonicalLen (clean_id g) = true
      · simp [hcan]
      · simp only [Bool.not_eq_true] at hcan
        simp only [hcan, if_neg (by simp : ¬(false = true))]
        cases hfc : firstCanonId ps t with
        | some c => simpa [hfc] using ih t (clean_id g)
        | none =>
          cases hl : lastProvId ps t with
          | none => simpa [hfc, hl] using ih t (clean_id g)
          | some c => simpa [hfc, hl] using ih t (clean_id g)

theorem dobLoop_eq : ∀ (ps : List Re) (t : List Char),
    dobLoop ps t =
      match firstSome (fun p => candOf p t) ps with
      | some g => pyStrip g
      | none => [] := by
  intro ps
  induction ps with
  | nil => intro t; simp [dobLoop, firstSome]
  | cons p ps ih =>
    intro t
    simp only [dobLoop, firstSome]
    cases hc : candOf p t with
    | none => simpa using ih t
    | some g => rfl

theorem nameLoop_blacklist : ∀ (ps : List Re) (t acc : List Char),
    blacklistHit acc = false → blacklistHit (nameLoop ps t acc) = false := by
  intro ps
  induction ps with
  | nil => intro t acc h; simpa [nameLoop] using h
  | cons p ps ih =>
    intro t acc h
    simp only [nameLoop]
    cases hc : candOf p t with
    | none => simpa using ih t acc h
    | some g0 =>
      by_cases hbl : blacklistHit (pyStrip g0) = true
      · simp only [hbl, if_pos]
        exact ih t acc h
      · simp only [Bool.not_eq_true] at hbl
        simp only [hbl, if_neg (by simp : ¬(false = true))]
        by_cases hacc : nameAcceptOk (pyStrip g0) = true
        · simpa [hacc] using hbl
        · simp only [Bool.not_eq_true] at hacc
          simp only [hacc, if_neg (by simp : ¬(false = true))]
          by_cases htent : nameTentOk (pyStrip g0) = true
          · simp only [htent, if_pos]
            exact ih t (pyStrip g0) hbl
          · simp only [Bool.not_eq_true] at htent
            simp only [htent, if_neg (by simp : ¬(false = true))]
            exact ih t acc h

/-!
The matcher ratio of a string with itself is 1: the dynamic program of
`find_longest_match` finds the full-length block on identical inputs.
-/

theorem innerRow_append (dprev : Nat → Nat) (i : Nat) :
    ∀ ys zs dnew best, innerRow dprev i (ys ++ zs) dnew best =
      innerRow dprev i zs (innerRow dprev i ys dnew best).1
        (innerRow dprev i ys dnew best).2 := by
  intro ys
  induction ys with
  | nil => intro zs dnew best; simp [innerRow]
  | cons j js ih =>
    intro zs dnew best
    simp only [List.cons_append, innerRow]
    exact ih zs _ _

theorem innerRow_dict (dprev : Nat → Nat) (i : Nat) :
    ∀ js dnew best x, (innerRow dprev i js dnew best).1 x =
      if x ∈ js then kOf dprev x else dnew x := by
  intro js
  induction js with
  | nil => intro dnew best x; simp [innerRow]
  | cons j js ih =>
    intro dnew best x
    simp only [innerRow]
    rw [ih]
    by_cases hx : x ∈ js
    · simp [hx, List.mem_cons]
    · by_cases hxj : x = j
      · subst hxj; simp [hx]
      · simp [hx, hxj, List.mem_cons]

theorem outerRows_append (a b : List Char) (blo bhi : Nat) :
    ∀ is1 is2 d best, outerRows a b blo bhi (is1 ++ is2) d best =
      outerRows a b blo bhi is2 (outerRows a b blo bhi is1 d best).1
        (outerRows a b blo bhi is1 d best).2 := by
  intro is1
  induction is1 with
  | nil => intro is2 d best; simp [outerRows]
  | cons i is ih =>
    intro is2 d best
    simp only [List.cons_append, outerRows]
    exact ih is2 _ _

theorem runAllow_le (l : List Char) : ∀ x, runAllow l x ≤ x + 1 := by
  intro x
  induction x with
  | zero => simp only [runAllow]; split <;> omega
  | succ x ih => simp only [runAllow]; split <;> omega

theorem runAllow_not_ok (l : List Char) (x : Nat) (h : okAt l x = false) :
    runAllow l x = 0 := by
  cases x <;> simp [runAllow, h]

theorem runAllow_zero_ok (l : List Char) (h : okAt l 0 = true) :
    runAllow l 0 = 1 := by
  simp [runAllow, h]

theorem runAllow_succ_ok (l : List Char) (x : Nat) (h : okAt l (x+1) = true) :
    runAllow l (x+1) = runAllow l x + 1 := by
  simp [runAllow, h]

theorem innerRow_nofire (dprev : Nat → Nat) (i : Nat) :
    ∀ js dnew best, (∀ j ∈ js, kOf dprev j ≤ best.2.2) →
      (innerRow dprev i js dnew best).2 = best := by
  intro js
  induction js with
  | nil => intro dnew best _; simp [innerRow]
  | cons j js ih =>
    intro dnew best h
    have hj := h j (List.mem_cons_self j js)
    simp only [innerRow]
    rw [if_neg (by omega : ¬ best.2.2 < kOf dprev j)]
    exact ih _ best (fun q hq => h q (List.mem_cons_of_mem j hq))

theorem okAt_elim (l : List Char) (i : Nat) (hok : okAt l i = true) :
    ∃ c, l[i]? = some c ∧ popularB l c = false := by
  unfold okAt at hok
  cases hli : l[i]? with
  | none => rw [hli] at hok; simp at hok
  | some c => rw [hli] at hok; exact ⟨c, rfl, by simpa using hok⟩

theorem rowIdx_self_mem (l : List Char) (n i : Nat) (hn : n = l.length) :
    ∀ j ∈ rowIdx l l 0 n i, j < n ∧ okAt l j = true ∧ okAt l i = true := by
  intro j hj
  unfold rowIdx at hj
  rcases List.mem_filter.1 hj with ⟨hr, hc⟩
  have hjn : j < n := by rw [List.mem_range'_1] at hr; omega
  simp only [Bool.and_eq_true, beq_iff_eq, Bool.not_eq_true'] at hc
  rcases hc with ⟨heq, hpop⟩
  have hcj : l[j]? = some l[j] := List.getElem?_eq_getElem (by omega)
  have hci : l[i]? = some l[j] := by rw [← heq]; exact hcj
  have hpc : popularB l l[j] = false := by
    rw [hci] at hpop
    simpa [popularO] using hpop
  exact ⟨hjn, by simp [okAt, hcj, hpc], by simp [okAt, hci, hpc]⟩

theorem rowIdx_self_empty (l : List Char) (n i : Nat) (hn : n = l.length)
    (h : okAt l i = false) : rowIdx l l 0 n i = [] := by
  rcases hE : rowIdx l l 0 n i with - | ⟨j, js⟩
  · rfl
  · have hj : j ∈ rowIdx l l 0 n i := by rw [hE]; exact List.mem_cons_self j js
    have := (rowIdx_self_mem l n i hn j hj).2.2
    rw [h] at this
    exact Bool.noConfusion this

theorem rowIdx_self_i_mem (l : List Char) (n i : Nat) (hn : n = l.length) (hi : i < n)
    (hok : okAt l i = true) : i ∈ rowIdx l l 0 n i := by
  unfold rowIdx
  rw [List.mem_filter]
  refine ⟨by rw [List.mem_range'_1]; omega, ?_⟩
  rcases okAt_elim l i hok with ⟨c, hc, hp⟩
  simp [hc, popularO, hp]

theorem rowIdx_self_split (l : List Char) (n i : Nat) (hn : n = l.length) (hi : i < n)
    (hok : okAt l i = true) :
    rowIdx l l 0 n i =
      (List.range' 0 i).filter (fun j => l[j]? == l[i]? && !popularO l l[i]?) ++
      i :: (List.range' (i+1) (n - i - 1)).filter
        (fun j => l[j]? == l[i]? && !popularO l l[i]?) := by
  unfold rowIdx
  rw [Nat.sub_zero]
  have h1 : List.range' 0 n = List.range' 0 i ++ List.range' i (n - i) := by
    have h := List.range'_append 0 i (n - i) 1
    simp only [Nat.one_mul, Nat.zero_add] at h
    rw [h]
    congr 1
    omega
  have h2 : List.range' i (n - i) = i :: List.range' (i+1) (n - i - 1) := by
    rw [show n - i = (n - i - 1) + 1 by omega, List.range'_succ]
    simp
  rw [h1, h2, List.filter_append]
  congr 1
  rcases okAt_elim l i hok with ⟨c, hc, hp⟩
  simp [List.filter_cons, hc, popularO, hp]

theorem row_step (l : List Char) (n : Nat) (hn : n = l.length) (i : Nat) (hi : i < n)
    (d : Nat → Nat) (best : Nat × Nat × Nat) (hD : DInv l i d) (hB : BInv l i best) :
    DInv l (i+1) (innerRow d i (rowIdx l l 0 n i) (fun _ => 0) best).1 ∧
    BInv l (i+1) (innerRow d i (rowIdx l l 0 n i) (fun _ => 0) best).2 := by
  rcases hD with ⟨hD1, hD2, hD3⟩
  rcases hB with ⟨hB1, hB2, hB3⟩
  by_cases hok : okAt l i = true
  · -- allowed row: the diagonal column i appears in the row, between the
    -- columns below and above it
    have hRi : runAllow l i = prevRun l i + 1 := by
      cases i with
      | zero => rw [runAllow_zero_ok l hok]; rfl
      | succ i' => rw [runAllow_succ_ok l i' hok]; rfl
    have hkR : ∀ j ∈ rowIdx l l 0 n i, kOf d j ≤ runAllow l j := by
      intro j hj
      have hokj := (rowIdx_self_mem l n i hn j hj).2.1
      unfold kOf
      cases j with
      | zero => simpa using (runAllow_zero_ok l hokj).ge
      | succ j' =>
        rw [if_neg (by omega : ¬ j' + 1 = 0), runAllow_succ_ok l j' hokj]
        simp only [Nat.add_sub_cancel]
        have := hD1 j'
        omega
    have hkRi : ∀ j : Nat, kOf d j ≤ runAllow l i := by
      intro j
      unfold kOf
      rw [hRi]
      cases j with
      | zero => simp
      | succ j' =>
        rw [if_neg (by omega : ¬ j' + 1 = 0)]
        simp only [Nat.add_sub_cancel]
        have := hD2 j'
        omega
    have hki : kOf d i = runAllow l i := by
      unfold kOf
      cases i with
      | zero => rw [runAllow_zero_ok l hok]; simp
      | succ i' =>
        rw [if_neg (by omega : ¬ i' + 1 = 0)]
        simp only [Nat.add_sub_cancel]
        rw [hD3 i' rfl, runAllow_succ_ok l i' hok]
    -- the best component of the row result
    have hbest2 : (innerRow d i (rowIdx l l 0 n i) (fun _ => 0) best).2 =
        (if best.2.2 < runAllow l i then
          (i + 1 - runAllow l i, i + 1 - runAllow l i, runAllow l i) else best) := by
      rw [rowIdx_self_split l n i hn hi hok, innerRow_append]
      have hys : ∀ j ∈ (List.range' 0 i).filter
          (fun j => l[j]? == l[i]? && !popularO l l[i]?), kOf d j ≤ best.2.2 := by
        intro j hj
        have hjlt : j < i := by
          have := List.mem_of_mem_filter hj
          rw [List.mem_range'_1] at this
          omega
        have hjmem : j ∈ rowIdx l l 0 n i := by
          rw [rowIdx_self_split l n i hn hi hok]
          exact List.mem_append_left _ hj
        exact le_trans (hkR j hjmem) (hB3 j hjlt)
      rw [innerRow_nofire d i _ _ best hys]
      simp only [innerRow]
      rw [hki]
      apply innerRow_nofire
      intro j _
      have hj := hkRi j
      by_cases hfire : best.2.2 < runAllow l i
      · rw [if_pos hfire]
        exact hj
      · rw [if_neg hfire]
        omega
    constructor
    · refine ⟨?_, ?_, ?_⟩
      · intro y
        rw [innerRow_dict]
        split
        · next hmem => exact hkR y hmem
        · omega
      · intro y
        rw [innerRow_dict]
        show _ ≤ runAllow l i
        split
        · exact hkRi y
        · omega
      · intro i' hi'
        have hii : i' = i := by omega
        subst hii
        rw [innerRow_dict, if_pos (rowIdx_self_i_mem l n i' hn hi hok)]
        exact hki
    · rw [hbest2]
      by_cases hfire : best.2.2 < runAllow l i
      · rw [if_pos hfire]
        have hle := runAllow_le l i
        refine ⟨rfl, ?_, ?_⟩
        · show i + 1 - runAllow l i + runAllow l i ≤ i + 1
          omega
        · intro x hx
          show runAllow l x ≤ runAllow l i
          rcases Nat.lt_succ_iff_lt_or_eq.1 hx with hx' | hx'
          · exact le_trans (hB3 x hx') (by omega)
          · subst hx'
            exact Nat.le_refl _
      · rw [if_neg hfire]
        refine ⟨hB1, by omega, ?_⟩
        intro x hx
        rcases Nat.lt_succ_iff_lt_or_eq.1 hx with hx' | hx'
        · exact hB3 x hx'
        · subst hx'
          omega
  · -- popular or out-of-range row: the column list is empty
    rw [rowIdx_self_empty l n i hn (by simpa using hok)]
    simp only [innerRow]
    have hR0 : runAllow l i = 0 := runAllow_not_ok l i (by simpa using hok)
    refine ⟨⟨fun y => Nat.zero_le _, fun y => Nat.zero_le _, ?_⟩, hB1, by omega, ?_⟩
    · intro i' hi'
      have hii : i' = i := by omega
      subst hii
      simpa using hR0.symm
    · intro x hx
      rcases Nat.lt_succ_iff_lt_or_eq.1 hx with hx' | hx'
      · exact hB3 x hx'
      · subst hx'
        omega

theorem outer_inv (l : List Char) (n : Nat) (hn : n = l.length) :
    ∀ m, m ≤ n →
      DInv l m ((outerRows l l 0 n (List.range m) (fun _ => 0) (0, 0, 0)).1) ∧
      BInv l m ((outerRows l l 0 n (List.range m) (fun _ => 0) (0, 0, 0)).2) := by
  intro m
  induction m with
  | zero =>
    intro _
    refine ⟨⟨fun y => ?_, fun y => ?_, fun i' hi' => ?_⟩, ?_, ?_, fun x hx => ?_⟩ <;>
      simp [outerRows, List.range_zero] at *
  | succ m ih =>
    intro hmn
    have hm : m < n := by omega
    rcases ih (by omega) with ⟨hD, hB⟩
    rw [List.range_succ, outerRows_append]
    simp only [outerRows]
    exact row_step l n hn m hm _ _ hD hB

theorem extendL_stay (a b : List Char) (alo blo : Nat) :
    ∀ fuel bj bs, extendL a b alo blo fuel (alo, bj, bs) = (alo, bj, bs) := by
  intro fuel bj bs
  cases fuel with
  | zero => rfl
  | succ f => simp [extendL]

theorem extendL_diag (l : List Char) :
    ∀ bi bs, bi + bs ≤ l.length → extendL l l 0 0 bi (bi, bi, bs) = (0, 0, bi + bs) := by
  intro bi
  induction bi with
  | zero => intro bs _; simp [extendL]
  | succ bi ih =>
    intro bs hle
    have hlt : bi < l.length := by omega
    simp only [extendL, Nat.add_sub_cancel]
    split
    · rw [ih (bs+1) (by omega), show bi + (bs+1) = bi + 1 + bs by omega]
    · next h =>
      exfalso
      apply h
      simp [List.getElem?_eq_getElem hlt]

theorem extendR_diag (l : List Char) :
    ∀ fuel bs, fuel = l.length - bs → bs ≤ l.length →
      extendR l l l.length l.length 0 0 fuel bs = l.length := by
  intro fuel
  induction fuel with
  | zero => intro bs h1 h2; simp only [extendR]; omega
  | succ f ih =>
    intro bs h1 h2
    have hlt : bs < l.length := by omega
    simp only [extendR, Nat.zero_add]
    split
    · exact ih (bs + 1) (by omega) (by omega)
    · next h =>
      exfalso
      apply h
      simp [List.getElem?_eq_getElem hlt, hlt]

theorem flm_self (l : List Char) :
    find_longest_match l l 0 l.length 0 l.length = (0, 0, l.length) := by
  have hinv := (outer_inv l l.length rfl l.length le_rfl).2
  unfold find_longest_match flmCore
  rw [Nat.sub_zero, ← List.range_eq_range']
  rcases hE : (outerRows l l 0 l.length (List.range l.length)
      (fun _ => 0) (0, 0, 0)).2 with ⟨bi, bj, bs⟩
  rw [hE] at hinv
  rcases hinv with ⟨hdiag, hle, -⟩
  simp only at hdiag hle
  subst hdiag
  simp only
  rw [extendL_diag l bi bs hle]
  simp only
  rw [Nat.zero_add]
  rw [extendR_diag l (l.length - (bi + bs)) (bi + bs) rfl hle]

theorem flm_empty (a b : List Char) (x y : Nat) :
    find_longest_match a b x x y y = (x, y, 0) := by
  unfold find_longest_match flmCore
  rw [Nat.sub_self]
  simp only [List.range'_zero, outerRows]
  simp only [extendL_stay]
  have h : x - (x + 0) = 0 := by omega
  rw [h]
  rfl

theorem mbSize_empty (a b : List Char) : ∀ fuel x y, mbSize a b fuel (x, x, y, y) = 0 := by
  intro fuel x y
  cases fuel with
  | zero => rfl
  | succ f => simp [mbSize, flm_empty]

theorem mbSize_self (l : List Char) (n : Nat) (hn : n = l.length) :
    mbSize l l (n + n + 1) (0, n, 0, n) = n := by
  subst hn
  by_cases h0 : l.length = 0
  · rw [h0]
    exact mbSize_empty l l 1 0 0
  · simp only [mbSize, flm_self l]
    rw [if_neg h0]
    rw [mbSize_empty l l (l.length + l.length) 0 0]
    rw [show 0 + l.length = l.length by omega]
    rw [mbSize_empty l l (l.length + l.length) l.length l.length]
    omega

theorem flK_spec (num den : Nat) :
    ∀ j fuel k, j ≤ fuel → 2^52 * den ≤ num * 2^(k+j) →
      (∀ i, i < j → ¬ 2^52 * den ≤ num * 2^(k+i)) → flK num den fuel k = k + j := by
  intro j
  induction j with
  | zero =>
    intro fuel k _ hcond _
    cases fuel with
    | zero => rfl
    | succ f =>
      simp only [flK]
      rw [if_pos (by simpa using hcond)]
      omega
  | succ j ih =>
    intro fuel k hfuel hcond hfail
    cases fuel with
    | zero => omega
    | succ f =>
      simp only [flK]
      rw [if_neg (by simpa using hfail 0 (by omega))]
      rw [ih f (k+1) (by omega) (by rw [show k + 1 + j = k + (j+1) by omega]; exact hcond)
        (fun i hij => by rw [show k + 1 + i = k + (i+1) by omega]; exact hfail (i+1) (by omega))]
      omega

theorem flK_self (x : Nat) (hx : 1 ≤ x) : flK x x (52 + x) 0 = 52 := by
  have h := flK_spec x x 52 (52 + x) 0 (by omega)
    (by rw [Nat.zero_add]; exact Nat.le_of_eq (Nat.mul_comm _ _))
    (fun i hi => by
      rw [Nat.zero_add]
      have h2 : (2:Nat)^i < 2^52 := Nat.pow_lt_pow_right (by omega) hi
      have h3 : x * 2^i < x * 2^52 := (Nat.mul_lt_mul_left hx).mpr h2
      omega)
  omega

theorem flq_self (x : Nat) (hx : 1 ≤ x) : flq x x = 1 := by
  unfold flq
  rw [if_neg (by omega : ¬(x = 0 ∨ x = 0))]
  simp only [flK_self x hx]
  rw [Nat.mul_div_cancel_left _ (by omega : 0 < x), Nat.mul_mod_right]
  rw [if_pos (by omega : 2 * 0 < x)]
  rw [Rat.mkRat_eq_div]
  push_cast
  exact div_self (by positivity)

theorem pyRatio_self (l : List Char) : pyRatio l l = 1 := by
  unfold pyRatio
  rw [mbSize_self l l.length rfl]
  by_cases h0 : l.length = 0
  · simp [h0]
  · rw [if_neg (by omega)]
    rw [show l.length + l.length = 2 * l.length by omega]
    exact flq_self (2 * l.length) (by omega)

theorem pyRound2_one : pyRound2 1 = 1 := by
  unfold pyRound2
  rw [show (bankers100 1).toNat = 100 by decide]
  exact flq_self 100 (by omega)

theorem pyRound2_pyRatio_self (l : List Char) : pyRound2 (pyRatio l l) = 1 := by
  rw [pyRatio_self]
  exact pyRound2_one

/-- C1: for every input, `extract_nid_fields` never raises (it is a total
function of the image-argument shape and the OCR outcome), and the result is
in exactly one of the states: `error` set with `Name`, `Date of birth` and
`ID Number` at their empty default, or `error` absent. -/
theorem C1_error_state_exclusive (img : PyImage) (ocr : OcrOutcome) :
    (extract_nid_fields img ocr).error = none ∨
    ((extract_nid_fields img ocr).error ≠ none ∧
     (extract_nid_fields img ocr).name = "" ∧
     (extract_nid_fields img ocr).dateOfBirth = "" ∧
     (extract_nid_fields img ocr).idNumber = "") := by
  cases img with
  | pathMissing => exact Or.inr ⟨by simp [extract_nid_fields, emptyNid], rfl, rfl, rfl⟩
  | otherType => exact Or.inr ⟨by simp [extract_nid_fields, emptyNid], rfl, rfl, rfl⟩
  | pathExists =>
    cases ocr with
    | raises msg => exact Or.inr ⟨by simp [extract_nid_fields, emptyNid], rfl, rfl, rfl⟩
    | returns results =>
      cases results with
      | nil => exact Or.inr ⟨by simp [extract_nid_fields, emptyNid], rfl, rfl, rfl⟩
      | cons r rs => exact Or.inl rfl
  | ndarray =>
    cases ocr with
    | raises msg => exact Or.inr ⟨by simp [extract_nid_fields, emptyNid], rfl, rfl, rfl⟩
    | returns results =>
      cases results with
      | nil => exact Or.inr ⟨by simp [extract_nid_fields, emptyNid], rfl, rfl, rfl⟩
      | cons r rs => exact Or.inl rfl

/-- C2: an empty OCR fragment sequence yields exactly the error
`"No text detected in the image"` with all four text fields empty, for both
image input modes that reach the OCR call. -/
theorem C2_no_text_detected :
    extract_nid_fields .pathExists (.returns []) =
      ⟨"", "", "", "", some "No text detected in the image"⟩ ∧
    extract_nid_fields .ndarray (.returns []) =
      ⟨"", "", "", "", some "No text detected in the image"⟩ :=
  ⟨rfl, rfl⟩

/-- C3 counterexample: the claim says a candidate is tentatively accepted
only if it is a single token (no space); but on this input the returned name
comes from the tentative branch while containing spaces (its length 47 is
outside [4,40], so it cannot come from the immediate-accept branch, and the
claim would require the Name to be a no-space token or in [4,40]). -/
theorem C3_counterexample :
    (extract_nid_fields .ndarray (.returns [["box",
        "Name: AAAAAAAAAAAAAAA BBBBBBBBBBBBBBB CCCCCCCCCCCCCCC"]])).name =
      "AAAAAAAAAAAAAAA BBBBBBBBBBBBBBB CCCCCCCCCCCCCCC" ∧
    ("AAAAAAAAAAAAAAA BBBBBBBBBBBBBBB CCCCCCCCCCCCCCC" : String).data.contains ' ' = true ∧
    ("AAAAAAAAAAAAAAA BBBBBBBBBBBBBBB CCCCCCCCCCCCCCC" : String).length = 47 :=
  ⟨by rfl, by decide, by decide⟩

/-- C3 amended: among non-blacklisted candidates, a spaced candidate with
length in [4,40] is accepted and the search stops (`firstAcceptName`);
otherwise a candidate longer than 5 characters with no embedded digit —
whether or not it contains a space — is tentatively accepted and the search
continues, a later accepted match overwriting it, and the last tentative
value is kept when no accepted match exists (`lastTentName`). -/
theorem C3_amended_tentative_policy :
    (∀ (ps : List Re) (t acc : List Char),
      nameLoop ps t acc =
        match firstAcceptName ps t with
        | some c => c
        | none => (lastTentName ps t).getD acc) ∧
    (∀ results : List (List String),
      (extractFromBlocks results).name =
        String.mk
          (match firstAcceptName name_patterns (joinSp (text_blocks results)) with
           | some c => c
           | none => (lastTentName name_patterns (joinSp (text_blocks results))).getD [])) := by
  refine ⟨nameLoop_eq, fun results => ?_⟩
  show String.mk (nameLoop name_patterns (joinSp (text_blocks results)) []) = _
  rw [nameLoop_eq]

/-- C4: the Name field of the result never case-insensitively contains a
blacklisted phrase: `blacklistHit` is the source's check
`any(blacklisted.lower() in name_candidate.lower() for blacklisted in
name_blacklist)`, and it is false of every returned Name. -/
theorem C4_blacklist_never_returned (img : PyImage) (ocr : OcrOutcome) :
    blacklistHit (extract_nid_fields img ocr).name.data = false := by
  have hempty : blacklistHit (("" : String).data) = false := by decide
  cases img with
  | pathMissing => exact hempty
  | otherType => exact hempty
  | pathExists =>
    cases ocr with
    | raises msg => exact hempty
    | returns results =>
      cases results with
      | nil => exact hempty
      | cons r rs => exact nameLoop_blacklist name_patterns _ [] (by decide)
  | ndarray =>
    cases ocr with
    | raises msg => exact hempty
    | returns results =>
      cases results with
      | nil => exact hempty
      | cons r rs => exact nameLoop_blacklist name_patterns _ [] (by decide)

/-- C5: each ID candidate is cleaned by stripping spaces and hyphens; a
cleaned candidate of length 10, 13 or 17 is accepted and the scan stops
(`firstCanonId`), otherwise the cleaned value is stored provisionally and
the scan continues, the last provisional value surviving when no
canonical-length match exists (`lastProvId`). -/
theorem C5_id_tiebreak_policy :
    (∀ (ps : List Re) (t acc : List Char),
      idLoop ps t acc =
        match firstCanonId ps t with
        | some c => c
        | none => (lastProvId ps t).getD acc) ∧
    (∀ results : List (List String),
      (extractFromBlocks results).idNumber =
        String.mk
          (match firstCanonId id_patterns (joinSp (text_blocks results)) with
           | some c => c
           | none => (lastProvId id_patterns (joinSp (text_blocks results))).getD [])) := by
  refine ⟨idLoop_eq, fun results => ?_⟩
  show String.mk (idLoop id_patterns (joinSp (text_blocks results)) []) = _
  rw [idLoop_eq]

/-- C6: the four date-of-birth patterns are tried in order (case-insensitive
literals model `re.IGNORECASE`); the first match anywhere in the flat text
wins and its captured group is returned verbatim after trimming; no calendar
validation is performed, witnessed by the accepted day 45 and month 13 in
the concrete scenario (with a lower-case label). -/
theorem C6_dob_first_match_no_validation :
    (∀ (ps : List Re) (t : List Char),
      dobLoop ps t =
        match firstSome (fun p => candOf p t) ps with
        | some g => pyStrip g
        | none => []) ∧
    (∀ results : List (List String),
      (extractFromBlocks results).dateOfBirth =
        String.mk
          (match firstSome (fun p => candOf p (joinSp (text_blocks results))) dob_patterns with
           | some g => pyStrip g
           | none => [])) ∧
    (extract_nid_fields .ndarray
        (.returns [["box", "date of birth: 45-13-2020"]])).dateOfBirth = "45-13-2020" := by
  refine ⟨dobLoop_eq, fun results => ?_, by rfl⟩
  show String.mk (dobLoop dob_patterns (joinSp (text_blocks results))) = _
  rw [dobLoop_eq]

/-- C7: the labelled scenario extracts all three fields as specified. -/
theorem C7_labeled_scenario :
    (extract_nid_fields .ndarray (.returns [["box",
        "Name: JOHN MICHAEL SMITH Date of Birth: 05-Jan-1990 ID NO: 1234567890123"]])).name =
      "JOHN MICHAEL SMITH" ∧
    (extract_nid_fields .ndarray (.returns [["box",
        "Name: JOHN MICHAEL SMITH Date of Birth: 05-Jan-1990 ID NO: 1234567890123"]])).dateOfBirth =
      "05-Jan-1990" ∧
    (extract_nid_fields .ndarray (.returns [["box",
        "Name: JOHN MICHAEL SMITH Date of Birth: 05-Jan-1990 ID NO: 1234567890123"]])).idNumber =
      "1234567890123" :=
  ⟨by rfl, by rfl, by rfl⟩

/-- C8: the similarity scorer returns the no-comparison-data report exactly
when both provided values are empty after trimming; otherwise it returns a
partial-comparison report whose name/dob slots independently hold the
rounded `SequenceMatcher` ratio of the uppercased strings when both values
are nonempty, the field's sentinel when only the provided value is nonempty,
and `none` when the provided value is absent; the ratio of identical strings
rounds to 1. -/
theorem C8_similarity_report_shape (pn pd en ed : String) :
    (process_image_similarity pn pd en ed = .noComparisonData ↔
      (pyStripS pn = "" ∧ pyStripS pd = "")) ∧
    ((pyStripS pn ≠ "" ∨ pyStripS pd ≠ "") →
      ∃ ns ds, process_image_similarity pn pd en ed = .partialComparison ns ds ∧
        (pyStripS pn ≠ "" → pyStripS en ≠ "" →
          ns = some (.num (pyRound2 (pyRatio (upperL (pyStripS pn).data)
            (upperL (pyStripS en).data))))) ∧
        (pyStripS pn ≠ "" → pyStripS en = "" →
          ns = some (.sentinel "no_extracted_name_available")) ∧
        (pyStripS pn = "" → ns = none) ∧
        (pyStripS pd ≠ "" → pyStripS ed ≠ "" →
          ds = some (.num (pyRound2 (pyRatio (upperL (pyStripS pd).data)
            (upperL (pyStripS ed).data))))) ∧
        (pyStripS pd ≠ "" → pyStripS ed = "" →
          ds = some (.sentinel "no_extracted_dob_available")) ∧
        (pyStripS pd = "" → ds = none)) ∧
    (∀ l : List Char, pyRound2 (pyRatio l l) = 1) := by
  refine ⟨?_, ?_, pyRound2_pyRatio_self⟩
  · unfold process_image_similarity
    by_cases h : pyStripS pn = "" ∧ pyStripS pd = ""
    · rw [if_pos h]
      simp [h]
    · rw [if_neg h]
      constructor
      · intro hx
        exact absurd hx (by simp)
      · intro hx
        exact absurd hx h
  · intro hor
    have h : ¬(pyStripS pn = "" ∧ pyStripS pd = "") := by tauto
    unfold process_image_similarity
    rw [if_neg h]
    refine ⟨_, _, rfl, ?_, ?_, ?_, ?_, ?_, ?_⟩
    · intro h1 h2
      rw [if_pos ⟨h1, h2⟩]
    · intro h1 h2
      rw [if_neg (by tauto : ¬(pyStripS pn ≠ "" ∧ pyStripS en ≠ "")), if_pos h1]
    · intro h1
      rw [if_neg (by tauto : ¬(pyStripS pn ≠ "" ∧ pyStripS en ≠ "")),
          if_neg (by tauto : ¬pyStripS pn ≠ "")]
    · intro h1 h2
      rw [if_pos ⟨h1, h2⟩]
    · intro h1 h2
      rw [if_neg (by tauto : ¬(pyStripS pd ≠ "" ∧ pyStripS ed ≠ "")), if_pos h1]
    · intro h1
      rw [if_neg (by tauto : ¬(pyStripS pd ≠ "" ∧ pyStripS ed ≠ "")),
          if_neg (by tauto : ¬pyStripS pd ≠ "")]

/-- C8 witness: the scenario with an identical provided and extracted name
and no provided date of birth. -/
theorem C8_witness : ∃ ns ds,
    process_image_similarity "JOHN SMITH" "" "JOHN SMITH" "" =
      SimReport.partialComparison ns ds ∧ ns = some (.num 1) := by
  rcases (C8_similarity_report_shape "JOHN SMITH" "" "JOHN SMITH" "").2.1
      (Or.inl (by decide)) with ⟨ns, ds, heq, h1, -, -, -, -, -⟩
  refine ⟨ns, ds, heq, ?_⟩
  rw [h1 (by decide) (by decide)]
  rw [pyRound2_pyRatio_self]

/-- C9: the similarity step never disturbs the extraction result: the four
extracted fields are copied unchanged whatever the scoring outcome, and a
scoring fault replaces the whole similarity sub-result with the
`error_calculating_similarity` report. -/
theorem C9_fault_isolated (r : NidData) (scored : Except String SimReport) (e : String) :
    (attach_similarity r scored).name = r.name ∧
    (attach_similarity r scored).dateOfBirth = r.dateOfBirth ∧
    (attach_similarity r scored).idNumber = r.idNumber ∧
    (attach_similarity r scored).fullExtractedText = r.fullExtractedText ∧
    (attach_similarity r scored).error = r.error ∧
    (attach_similarity r (.error e)).similarity = .errorCalculating := by
  cases scored <;> exact ⟨rfl, rfl, rfl, rfl, rfl, rfl⟩

/-- C10: the ID Number field always consists exclusively of decimal digits
(the empty string included): every ID pattern's group captures only digits,
spaces and hyphens, and the separators are stripped before storing. -/
theorem C10_id_digits_only (img : PyImage) (ocr : OcrOutcome) :
    (extract_nid_fields img ocr).idNumber.data.all isDigitA = true := by
  have hempty : (("" : String).data.all isDigitA) = true := by decide
  cases img with
  | pathMissing => exact hempty
  | otherType => exact hempty
  | pathExists =>
    cases ocr with
    | raises msg => exact hempty
    | returns results =>
      cases results with
      | nil => exact hempty
      | cons r rs =>
        rw [List.all_eq_true]
        intro c hc
        exact idLoop_digits id_patterns _ [] id_patterns_grponly (by simp) c hc
  | ndarray =>
    cases ocr with
    | raises msg => exact hempty
    | returns results =>
      cases results with
      | nil => exact hempty
      | cons r rs =>
        rw [List.all_eq_true]
        intro c hc
        exact idLoop_digits id_patterns _ [] id_patterns_grponly (by simp) c hc
